import Mathlib

/-!
Verification of the schema-checking program (`hw1.py`): a shallow embedding of
its three core components — the schema-text parser `parse_schema_text`, the
referential-integrity checker `check_referential_integrity`, and the
normalization checker `check_normalization` — together with theorems settling
the specification's claims about them.

Python strings are modelled as `List Char` during scanning and `String` in the
result records.  The database connection is modelled as an oracle mapping the
exact SQL text the program builds to the scalar row the program fetches; the
statements passed to `cursor.execute` are collected in issuance order so that
claims about which queries are issued can be stated.
-/

namespace HW1

/-- Python `\s` / `str.strip` whitespace, restricted to the ASCII range that
can occur around schema tokens (space, tab, newline, carriage return,
vertical tab, form feed). -/
def isPyWS (c : Char) : Bool :=
  c = ' ' || c = '\t' || c = '\n' || c = '\x0d' || c = '\x0b' || c = '\x0c'

/-- Characters of the `[A-Za-z0-9_]` identifier class used by every regex in
the parser. -/
def isIdentChar (c : Char) : Bool :=
  ('A' ≤ c && c ≤ 'Z') || ('a' ≤ c && c ≤ 'z') || ('0' ≤ c && c ≤ '9') || c = '_'

/-- Left part of Python `str.strip`. -/
def stripL (l : List Char) : List Char := l.dropWhile isPyWS

/-- Right part of Python `str.strip`. -/
def stripR (l : List Char) : List Char := (l.reverse.dropWhile isPyWS).reverse

/-- Python `str.strip()`. -/
def pyStrip (l : List Char) : List Char := stripR (stripL l)

/-- Python `str.lower()` (identifiers are ASCII, so `Char.toLower` agrees). -/
def pyLower (l : List Char) : List Char := l.map Char.toLower

/-- Python `repr` of a short string that needs no escaping (the form used in
the parser's diagnostic messages). -/
def pyRepr (s : String) : String := "\x27" ++ s ++ "\x27"

/-- Line-boundary characters recognised by Python `str.splitlines` (besides
the two-character boundary `\r\n`, handled separately). -/
def isLineBreak (c : Char) : Bool :=
  c = '\n' || c = '\x0d' || c = '\x0b' || c = '\x0c' ||
  c = '\x1c' || c = '\x1d' || c = '\x1e' || c = '\x85' || c = '\u2028' || c = '\u2029'

/-- Worker for `pySplitlines`: `acc` holds the current line reversed. -/
def splitlinesGo : List Char → List Char → List (List Char)
  | acc, [] => [acc.reverse]
  | acc, '\x0d' :: '\n' :: rest =>
    acc.reverse :: (if rest.isEmpty then [] else splitlinesGo [] rest)
  | acc, c :: rest =>
    if isLineBreak c then acc.reverse :: (if rest.isEmpty then [] else splitlinesGo [] rest)
    else splitlinesGo (c :: acc) rest

/-- Python `str.splitlines()`. -/
def pySplitlines (l : List Char) : List (List Char) :=
  match l with
  | [] => []
  | _ => splitlinesGo [] l

/-- Worker for `splitComma`: `acc` holds the current field reversed. -/
def splitCommaGo : List Char → List Char → List (List Char)
  | acc, [] => [acc.reverse]
  | acc, c :: rest =>
    if c = ',' then acc.reverse :: splitCommaGo [] rest
    else splitCommaGo (c :: acc) rest

/-- Python `str.split(',')`. -/
def splitComma (l : List Char) : List (List Char) := splitCommaGo [] l

/-- The table-line regex `^\s*([A-Za-z0-9_]+)\s*\(\s*(.*)\s*\)\s*$` applied to
a (stripped) line: on success returns group 1 (the table identifier) and the
text between the opening parenthesis and the last `)` that is followed only
by whitespace (group 2 up to the later `.strip()`). -/
def matchTableLine (line : List Char) : Option (List Char × List Char) :=
  let l1 := line.dropWhile isPyWS
  let ident := l1.takeWhile isIdentChar
  let rest := (l1.dropWhile isIdentChar).dropWhile isPyWS
  if ident.isEmpty then none
  else
    match rest with
    | '(' :: after =>
      match after.reverse.dropWhile isPyWS with
      | ')' :: revBody => some (ident, revBody.reverse)
      | _ => none
    | _ => none

/-- The column-token regex `^([A-Za-z0-9_]+)\s*(?:\(\s*([^)]+)\s*\))?$`
applied to a stripped token: returns the identifier and, when the
parenthesised part is present, its raw inner text (nonempty and free of `)`;
the program only ever uses `inner.strip().lower()`, which coincides with the
captured group's `.strip().lower()`). -/
def matchColToken (part : List Char) : Option (List Char × Option (List Char)) :=
  let ident := part.takeWhile isIdentChar
  let rest := part.dropWhile isIdentChar
  if ident.isEmpty then none
  else
    match rest.dropWhile isPyWS with
    | [] => some (ident, none)
    | '(' :: inner =>
      match inner.reverse with
      | ')' :: revBody =>
        let body := revBody.reverse
        if body.isEmpty then none
        else if body.contains ')' then none
        else some (ident, some body)
      | _ => none
    | _ => none

/-- The FK-reference regex `^([A-Za-z0-9_]+)\.([A-Za-z0-9_]+)$`. -/
def matchFkRef (ref : List Char) : Option (List Char × List Char) :=
  let a := ref.takeWhile isIdentChar
  let rest := ref.dropWhile isIdentChar
  if a.isEmpty then none
  else
    match rest with
    | '.' :: b => if !b.isEmpty && b.all isIdentChar then some (a, b) else none
    | _ => none

/-- Extraction of the reference text from a `fk...` annotation:
`ann_clean.split(':', 1)[1].strip()` when a colon is present, otherwise
`ann_clean.split(None, 1)[1].strip()`. -/
def fkRefOf (annClean : List Char) : List Char :=
  if annClean.contains ':' then
    pyStrip ((annClean.dropWhile (fun c => c ≠ ':')).drop 1)
  else
    pyStrip ((annClean.dropWhile (fun c => !isPyWS c)).dropWhile isPyWS)

/-- One foreign-key record as built by the parser (`col` / `ref_table` /
`ref_pk` dictionary entries; a field can be `None`). -/
structure FkEntry where
  col : Option String
  ref_table : Option String
  ref_pk : Option String
deriving DecidableEq, Repr

/-- One table record as built by the parser. -/
structure TableD where
  table : String
  pk : Option String
  cols : List String
  fks : List FkEntry
  composite : Bool
  skip : Bool
  errors : List String
deriving DecidableEq, Repr

/-- The mutable loop state of the column-token loop (lines 69–114 of the
source): `seen` is the membership set of already-seen column names, modelled
as a duplicate-free list. -/
structure ScanSt where
  cols : List String
  fks : List FkEntry
  pkCandidates : List String
  errors : List String
  seen : List String
deriving DecidableEq, Repr

/-- Lines 83–86: duplicate check, `seen.add(col)`, `cols.append(col)`. -/
def addCol (st : ScanSt) (col : String) : ScanSt :=
  { st with
    errors := if st.seen.contains col then st.errors ++ ["duplicate column " ++ col] else st.errors
    seen := if st.seen.contains col then st.seen else st.seen ++ [col]
    cols := st.cols ++ [col] }

/-- Lines 88–114: handling of the optional annotation of a column token. -/
def applyAnn (st1 : ScanSt) (col : String) (annO : Option (List Char)) : ScanSt :=
  match annO with
  | none => st1
  | some ann =>
    let annClean := pyLower (pyStrip ann)
    if annClean = "pk".toList then
      { st1 with pkCandidates := st1.pkCandidates ++ [col] }
    else if annClean.take 3 = "fk:".toList || annClean.take 3 = "fk ".toList then
      let ref := fkRefOf annClean
      match matchFkRef ref with
      | none =>
        { st1 with
          errors := st1.errors ++
            ["bad FK reference \x27" ++ String.mk ref ++ "\x27 on column " ++ col]
          fks := st1.fks ++ [⟨some col, none, none⟩] }
      | some (rt, rp) =>
        { st1 with
          fks := st1.fks ++
            [⟨some col, some (String.mk (pyLower rt)), some (String.mk (pyLower rp))⟩] }
    else
      { st1 with
        errors := st1.errors ++
          ["unknown annotation \x27" ++ String.mk annClean ++ "\x27 for column " ++ col] }

/-- Processing of one stripped column token (the body of the `for part in
parts` loop, lines 75–114). -/
def processPart (st : ScanSt) (part : List Char) : ScanSt :=
  match matchColToken part with
  | none =>
    { st with errors := st.errors ++ ["can\x27t parse column token " ++ pyRepr (String.mk part)] }
  | some (colC, annO) =>
    let col := String.mk (pyLower colC)
    applyAnn (addCol st col) col annO

/-- The full column-token loop over the token list. -/
def scanParts (parts : List (List Char)) : ScanSt :=
  parts.foldl processPart ⟨[], [], [], [], []⟩

/-- `[p.strip() for p in inside.split(',') if p.strip()]`. -/
def partsOf (inside : List Char) : List (List Char) :=
  ((splitComma inside).map pyStrip).filter (fun p => !p.isEmpty)

/-- Lines 116–149 of the source: FK cap, primary-key resolution and skip
determination, producing the final table record from the loop state. -/
def finalizeTable (tbl : String) (st : ScanSt) : TableD :=
  let fks := if 3 < st.fks.length then st.fks.take 3 else st.fks
  let errors1 := if 3 < st.fks.length then
      st.errors ++ ["more than 3 FKs found; only first 3 kept"] else st.errors
  let pk : Option String := match st.pkCandidates with
    | [c] => some c
    | _ => none
  let composite : Bool := match st.pkCandidates with
    | [_] => false
    | _ => true
  -- `if pk and pk not in cols` (Python truthiness: the empty string is falsy)
  let pkBad : Bool := match pk with
    | some p => !(p = "") && !(st.cols.contains p)
    | none => false
  let errors2 := if pkBad then errors1 ++ ["pk not found in cols"] else errors1
  let skip := pkBad || pk.isNone || st.cols.isEmpty
  { table := tbl, pk := pk, cols := st.cols, fks := fks,
    composite := composite, skip := skip, errors := errors2 }

/-- Lines 54–149: handling of a matched table line, given the lowered table
name and the raw group-2 text. -/
def processBody (tbl : String) (group2 : List Char) : TableD :=
  let inside := pyStrip group2
  if inside.isEmpty then
    { table := tbl, pk := none, cols := [], fks := [], composite := true,
      skip := true, errors := ["no columns found"] }
  else
    finalizeTable tbl (scanParts (partsOf inside))

/-- The placeholder record created for a non-matching line (lines 42–50). -/
def placeholderT (lineno : Nat) : TableD :=
  { table := "line_" ++ toString lineno, pk := none, cols := [], fks := [],
    composite := true, skip := true, errors := ["can\x27t parse table line"] }

/-- The global error recorded for a non-matching line (line 40). -/
def lineErr (lineno : Nat) (raw : List Char) : String :=
  "Line " ++ toString lineno ++ ": can\x27t parse table line: " ++ pyRepr (String.mk raw)

/-- One iteration of the line loop: `none` when the line is blank or a
comment, otherwise the table record together with the global error, if any,
the line produced. -/
def processLine (lineno : Nat) (raw : List Char) : Option (TableD × Option String) :=
  let line := pyStrip raw
  if line.isEmpty then none
  else if line.take 2 = "--".toList || line.take 1 = "#".toList then none
  else
    match matchTableLine line with
    | none => some (placeholderT lineno, some (lineErr lineno raw))
    | some (identC, group2) => some (processBody (String.mk (pyLower identC)) group2, none)

/-- The line loop, with 1-based line numbering. -/
def parseLinesGo : Nat → List (List Char) → List TableD × List String
  | _, [] => ([], [])
  | n, raw :: rest =>
    let tail := parseLinesGo (n + 1) rest
    match processLine n raw with
    | none => tail
    | some (t, none) => (t :: tail.1, tail.2)
    | some (t, some e) => (t :: tail.1, e :: tail.2)

/-- `parse_schema_text(text) -> (tables, global_errors)`. -/
def parse_schema_text (text : String) : List TableD × List String :=
  parseLinesGo 1 (pySplitlines text.toList)

/-- A line the loop actually processes: non-blank after stripping and not a
`--`/`#` comment (lines 31–35). -/
def isRealLine (raw : List Char) : Bool :=
  let line := pyStrip raw
  !line.isEmpty && !(line.take 2 = "--".toList || line.take 1 = "#".toList)

/-!  Referential-integrity checker (`check_referential_integrity`, lines
200–239).  The live connection is modelled as an oracle from the exact SQL
text to the single scalar the program fetches; every string passed to
`cursor.execute` is recorded in issuance order. -/

/-- The query interface: `exec` is the scalar that `fetchone()` returns for
a given SQL text. -/
structure RIDb where
  exec : String → Int

/-- The orphan-count query `q_viol` built at lines 216–221. -/
def q_viol (table_name col rt rp : String) : String :=
  "SELECT COUNT(*) AS fk_violations FROM public." ++ table_name ++
  " child LEFT JOIN public." ++ rt ++ " parent ON child." ++ col ++
  " = parent." ++ rp ++ " WHERE child." ++ col ++ " IS NOT NULL AND parent." ++
  rp ++ " IS NULL"

/-- The supporting total-row-count query (line 227). -/
def q_count_all (table_name : String) : String :=
  "SELECT COUNT(*) FROM public." ++ table_name

/-- The supporting inner-join count query (lines 228–231). -/
def q_count_join (table_name col rt rp : String) : String :=
  "SELECT COUNT(*) FROM public." ++ table_name ++ " c JOIN public." ++ rt ++
  " p ON c." ++ col ++ " = p." ++ rp

/-- Body of the `for fk in fks` loop: state is `(all_ok, executed statements)`.
Python truthiness makes a missing (`None`) or empty-string field malformed. -/
def riStep (db : RIDb) (table_name : String) (st : Bool × List String)
    (fk : FkEntry) : Bool × List String :=
  match fk.col, fk.ref_table, fk.ref_pk with
  | some col, some rt, some rp =>
    if col = "" || rt = "" || rp = "" then (false, st.2)
    else
      let q1 := q_viol table_name col rt rp
      let violations := db.exec q1
      (st.1 && decide (violations = 0),
        st.2 ++ [q1, q_count_all table_name, q_count_join table_name col rt rp])
  | _, _, _ => (false, st.2)

/-- `check_referential_integrity(conn, table_name, fks)`, returning the
verdict together with the statements executed on the connection (the
unconditional `SET search_path` first, then the per-FK queries). -/
def check_referential_integrity (db : RIDb) (table_name : String)
    (fks : List FkEntry) : String × List String :=
  let r := fks.foldl (riStep db table_name) (true, ["SET search_path TO public;"])
  ((if r.1 then "Y" else "N"), r.2)

/-- The statements a single FK record causes to be executed (none when the
record is malformed). -/
def fkQueries (table_name : String) (fk : FkEntry) : List String :=
  match fk.col, fk.ref_table, fk.ref_pk with
  | some col, some rt, some rp =>
    if col = "" || rt = "" || rp = "" then []
    else [q_viol table_name col rt rp, q_count_all table_name,
          q_count_join table_name col rt rp]
  | _, _, _ => []

/-- Pass/fail of a single FK record: well-formed and with a zero orphan
count. -/
def fkOk (db : RIDb) (table_name : String) (fk : FkEntry) : Bool :=
  match fk.col, fk.ref_table, fk.ref_pk with
  | some col, some rt, some rp =>
    !(col = "" || rt = "" || rp = "") && decide (db.exec (q_viol table_name col rt rp) = 0)
  | _, _, _ => false

/-!  Normalization checker (`check_normalization`, lines 290–314).  The two
query shapes both fetch a row of two scalars, so the oracle returns a pair. -/

/-- The query interface for the normalization checker: `exec2` is the
two-scalar row that `fetchone()` returns for a given SQL text. -/
structure NormDb where
  exec2 : String → Int × Int

/-- `SELECT COUNT(*), COUNT(DISTINCT x) FROM t;` (line 297). -/
def qRepeat (x table_name : String) : String :=
  "SELECT COUNT(*), COUNT(DISTINCT " ++ x ++ ") FROM " ++ table_name ++ ";"

/-- `SELECT COUNT(DISTINCT (x,y)), COUNT(DISTINCT x) FROM t;` (line 306). -/
def qPair (x y table_name : String) : String :=
  "SELECT COUNT(DISTINCT (" ++ x ++ "," ++ y ++ ")), COUNT(DISTINCT " ++ x ++
  ") FROM " ++ table_name ++ ";"

/-- The inner `for y in non_pk` loop probing FD `x → y`: returns `false`
(and stops) as soon as a pair query comes back with equal counts, together
with the queries issued. -/
def normInner (db : NormDb) (table_name x : String) : List String → Bool × List String
  | [] => (true, [])
  | y :: ys =>
    if y = x then normInner db table_name x ys
    else
      let q := qPair x y table_name
      let r := db.exec2 q
      if r.1 = r.2 then (false, [q])
      else
        let r2 := normInner db table_name x ys
        (r2.1, q :: r2.2)

/-- The outer `for x in non_pk` loop: `np` is the full non-key column list
(the inner loop always ranges over all of it), the last argument the
remaining outer iterations. -/
def normOuter (db : NormDb) (table_name : String) (np : List String) :
    List String → Bool × List String
  | [] => (true, [])
  | x :: xs =>
    let qa := qRepeat x table_name
    let ra := db.exec2 qa
    if ra.2 = ra.1 then
      let rest := normOuter db table_name np xs
      (rest.1, qa :: rest.2)
    else
      let inner := normInner db table_name x np
      if inner.1 then
        let rest := normOuter db table_name np xs
        (rest.1, (qa :: inner.2) ++ rest.2)
      else (false, qa :: inner.2)

/-- `non_pk = [c for c in cols if c != pk]` (line 293).  `pk` is optional,
matching the `None` primary key a composite table carries; `c != pk` is then
always true. -/
def non_pk (pk : Option String) (cols : List String) : List String :=
  cols.filter (fun c => some c ≠ pk)

/-- `check_normalization(conn, table_name, pk, cols)`, returning the verdict
together with the queries issued. -/
def check_normalization (db : NormDb) (table_name : String) (pk : Option String)
    (cols : List String) : String × List String :=
  let np := non_pk pk cols
  let r := normOuter db table_name np np
  ((if r.1 then "Y" else "N"), r.2)

/-! ### Lemmas about the referential-integrity checker -/

theorem verdict_eq_Y (b : Bool) : (if b then "Y" else "N") = "Y" ↔ b = true := by
  cases b <;> simp

theorem ri_foldl (db : RIDb) (t : String) (fks : List FkEntry) :
    ∀ b l, fks.foldl (riStep db t) (b, l) =
      (b && fks.all (fkOk db t), l ++ (fks.map (fkQueries t)).flatten) := by
  induction fks with
  | nil => intro b l; simp
  | cons fk rest ih =>
    intro b l
    simp only [List.foldl_cons, List.all_cons, List.map_cons, List.flatten]
    rcases fk with ⟨c, rt, rp⟩
    rcases c with _ | c <;> rcases rt with _ | rt <;> rcases rp with _ | rp <;>
      simp only [riStep, fkOk, fkQueries, ih, Bool.false_and, Bool.and_false] <;>
      try simp [ih]
    by_cases h1 : c = "" <;> by_cases h2 : rt = "" <;> by_cases h3 : rp = "" <;>
      simp [h1, h2, h3, ih, Bool.and_assoc, List.append_assoc]

theorem fkOk_iff (db : RIDb) (t : String) (fk : FkEntry)
    (h1 : ∀ s, fk.col = some s → s ≠ "")
    (h2 : ∀ s, fk.ref_table = some s → s ≠ "")
    (h3 : ∀ s, fk.ref_pk = some s → s ≠ "") :
    fkOk db t fk = true ↔ ∃ c r p, fk.col = some c ∧ fk.ref_table = some r ∧
      fk.ref_pk = some p ∧ db.exec (q_viol t c r p) = 0 := by
  rcases fk with ⟨c, rt, rp⟩
  rcases c with _ | c <;> rcases rt with _ | rt <;> rcases rp with _ | rp <;>
    simp only [fkOk] <;> try simp
  have hc := h1 c rfl
  have hr := h2 rt rfl
  have hp := h3 rp rfl
  simp [hc, hr, hp]

/-- C1: `check_referential_integrity` returns "Y" iff every foreign-key
triplet has all of `col`, `ref_table`, `ref_pk` present and the orphan-count
query of every triplet returns zero; a malformed triplet makes the verdict
"N" but does not abort the scan — every well-formed triplet, before or after
it, still gets its three queries issued (second conjunct: the executed
statements are exactly the `SET search_path` plus the queries of every
well-formed triplet in order).  The hypothesis restricts fields to the
parser-reachable ones (`None` or a nonempty identifier), over which Python's
truthiness test coincides with presence. -/
theorem c1_ri_verdict (db : RIDb) (t : String) (fks : List FkEntry)
    (hwf : ∀ fk ∈ fks, (∀ s, fk.col = some s → s ≠ "") ∧
      (∀ s, fk.ref_table = some s → s ≠ "") ∧ (∀ s, fk.ref_pk = some s → s ≠ "")) :
    ((check_referential_integrity db t fks).1 = "Y" ↔
      ∀ fk ∈ fks, ∃ c r p, fk.col = some c ∧ fk.ref_table = some r ∧
        fk.ref_pk = some p ∧ db.exec (q_viol t c r p) = 0) ∧
    (check_referential_integrity db t fks).2 =
      "SET search_path TO public;" :: (fks.map (fkQueries t)).flatten := by
  have hlog : (check_referential_integrity db t fks).2 =
      "SET search_path TO public;" :: (fks.map (fkQueries t)).flatten := by
    unfold check_referential_integrity
    rw [ri_foldl]
    simp
  have hv : (check_referential_integrity db t fks).1 =
      (if fks.all (fkOk db t) then "Y" else "N") := by
    unfold check_referential_integrity
    rw [ri_foldl]
    simp
  refine ⟨?_, hlog⟩
  rw [hv, verdict_eq_Y, List.all_eq_true]
  constructor
  · intro h fk hfk
    exact (fkOk_iff db t fk (hwf fk hfk).1 (hwf fk hfk).2.1 (hwf fk hfk).2.2).mp (h fk hfk)
  · intro h fk hfk
    exact (fkOk_iff db t fk (hwf fk hfk).1 (hwf fk hfk).2.1 (hwf fk hfk).2.2).mpr (h fk hfk)

/-- A connection oracle on which every query returns 0. -/
def riDbZero : RIDb := ⟨fun _ => 0⟩

/-- The foreign-key list of the spec's `orders` scenario. -/
def fksC1 : List FkEntry := [⟨some "customer", some "customers", some "id"⟩]

/-- Witness for C1: on a concrete one-FK list over a zero-orphan oracle the
verdict is "Y" and the executed statements are the `SET` plus that FK's
three queries. -/
theorem c1_ri_verdict_witness :
    (check_referential_integrity riDbZero "orders" fksC1).1 = "Y" ∧
    (check_referential_integrity riDbZero "orders" fksC1).2 =
      "SET search_path TO public;" :: (fksC1.map (fkQueries "orders")).flatten := by
  have hwf : ∀ fk ∈ fksC1, (∀ s, fk.col = some s → s ≠ "") ∧
      (∀ s, fk.ref_table = some s → s ≠ "") ∧ (∀ s, fk.ref_pk = some s → s ≠ "") := by
    intro fk hfk
    rw [fksC1, List.mem_singleton] at hfk
    subst hfk
    refine ⟨?_, ?_, ?_⟩ <;> (intro s hs; cases Option.some.inj hs; decide)
  have h := c1_ri_verdict riDbZero "orders" fksC1 hwf
  refine ⟨h.1.mpr ?_, h.2⟩
  intro fk hfk
  rw [fksC1, List.mem_singleton] at hfk
  subst hfk
  exact ⟨"customer", "customers", "id", rfl, rfl, rfl, rfl⟩

/-- C4 counterexample: invoked with an empty foreign-key list the checker
does return "Y", but it is not true that it issues no statement on the
connection — it unconditionally executes `SET search_path TO public;`
(line 203) before inspecting the list. -/
theorem c4_counterexample :
    ¬ ((check_referential_integrity riDbZero "orders" []).1 = "Y" ∧
       (check_referential_integrity riDbZero "orders" []).2 = []) := by
  intro h
  exact absurd h.2 (by decide)

/-- C4 (amended): with an empty foreign-key list the checker returns "Y" and
executes nothing beyond the unconditional `SET search_path TO public;`
statement — in particular no per-foreign-key query. -/
theorem c4_empty_fks (db : RIDb) (t : String) :
    check_referential_integrity db t [] = ("Y", ["SET search_path TO public;"]) := rfl

/-! ### Lemmas about the normalization checker -/

theorem verdict_eq_N (b : Bool) : (if b then "Y" else "N") = "N" ↔ b = false := by
  cases b <;> simp

theorem normInner_skip (db : NormDb) (t x : String) (ys : List String) :
    normInner db t x (x :: ys) = normInner db t x ys := by
  simp [normInner]

theorem normInner_hit (db : NormDb) (t x y : String) (ys : List String)
    (hxy : y ≠ x) (hq : (db.exec2 (qPair x y t)).1 = (db.exec2 (qPair x y t)).2) :
    normInner db t x (y :: ys) = (false, [qPair x y t]) := by
  simp [normInner, hxy, hq]

theorem normInner_miss (db : NormDb) (t x y : String) (ys : List String)
    (hxy : y ≠ x) (hq : ¬(db.exec2 (qPair x y t)).1 = (db.exec2 (qPair x y t)).2) :
    normInner db t x (y :: ys) =
      ((normInner db t x ys).1, qPair x y t :: (normInner db t x ys).2) := by
  simp [normInner, hxy, hq]

theorem normInner_false_iff (db : NormDb) (t x : String) (ys : List String) :
    (normInner db t x ys).1 = false ↔
      ∃ y ∈ ys, y ≠ x ∧ (db.exec2 (qPair x y t)).1 = (db.exec2 (qPair x y t)).2 := by
  induction ys with
  | nil => simp [normInner]
  | cons y ys ih =>
    by_cases hxy : y = x
    · subst hxy
      rw [normInner_skip, ih]
      constructor
      · rintro ⟨z, hz, hzx, hzq⟩
        exact ⟨z, List.mem_cons_of_mem _ hz, hzx, hzq⟩
      · rintro ⟨z, hz, hzx, hzq⟩
        rcases List.mem_cons.mp hz with h | h
        · exact absurd h hzx
        · exact ⟨z, h, hzx, hzq⟩
    · by_cases hq : (db.exec2 (qPair x y t)).1 = (db.exec2 (qPair x y t)).2
      · rw [normInner_hit db t x y ys hxy hq]
        exact ⟨fun _ => ⟨y, List.mem_cons_self _ _, hxy, hq⟩, fun _ => rfl⟩
      · rw [normInner_miss db t x y ys hxy hq]
        rw [show ((normInner db t x ys).1, qPair x y t :: (normInner db t x ys).2).1 =
          (normInner db t x ys).1 from rfl, ih]
        constructor
        · rintro ⟨z, hz, hzx, hzq⟩
          exact ⟨z, List.mem_cons_of_mem _ hz, hzx, hzq⟩
        · rintro ⟨z, hz, hzx, hzq⟩
          rcases List.mem_cons.mp hz with h | h
          · subst h; exact absurd hzq hq
          · exact ⟨z, h, hzx, hzq⟩

theorem normInner_false_last (db : NormDb) (t x : String) (ys : List String) :
    (normInner db t x ys).1 = false →
    ∃ y l, y ∈ ys ∧ y ≠ x ∧
      (db.exec2 (qPair x y t)).1 = (db.exec2 (qPair x y t)).2 ∧
      (normInner db t x ys).2 = l ++ [qPair x y t] := by
  induction ys with
  | nil => simp [normInner]
  | cons y ys ih =>
    intro h
    by_cases hxy : y = x
    · subst hxy
      rw [normInner_skip] at h ⊢
      obtain ⟨z, l, hz, hzx, hzq, hlog⟩ := ih h
      exact ⟨z, l, List.mem_cons_of_mem _ hz, hzx, hzq, hlog⟩
    · by_cases hq : (db.exec2 (qPair x y t)).1 = (db.exec2 (qPair x y t)).2
      · rw [normInner_hit db t x y ys hxy hq]
        exact ⟨y, [], List.mem_cons_self _ _, hxy, hq, rfl⟩
      · rw [normInner_miss db t x y ys hxy hq] at h ⊢
        obtain ⟨z, l, hz, hzx, hzq, hlog⟩ := ih h
        refine ⟨z, qPair x y t :: l, List.mem_cons_of_mem _ hz, hzx, hzq, ?_⟩
        simp [hlog]

theorem normOuter_skipEq (db : NormDb) (t : String) (np : List String)
    (x : String) (xs : List String)
    (hd : (db.exec2 (qRepeat x t)).2 = (db.exec2 (qRepeat x t)).1) :
    normOuter db t np (x :: xs) =
      ((normOuter db t np xs).1, qRepeat x t :: (normOuter db t np xs).2) := by
  simp [normOuter, hd]

theorem normOuter_innerOk (db : NormDb) (t : String) (np : List String)
    (x : String) (xs : List String)
    (hd : ¬(db.exec2 (qRepeat x t)).2 = (db.exec2 (qRepeat x t)).1)
    (hin : (normInner db t x np).1 = true) :
    normOuter db t np (x :: xs) =
      ((normOuter db t np xs).1,
        (qRepeat x t :: (normInner db t x np).2) ++ (normOuter db t np xs).2) := by
  simp [normOuter, hd, hin]

theorem normOuter_innerBad (db : NormDb) (t : String) (np : List String)
    (x : String) (xs : List String)
    (hd : ¬(db.exec2 (qRepeat x t)).2 = (db.exec2 (qRepeat x t)).1)
    (hin : (normInner db t x np).1 = false) :
    normOuter db t np (x :: xs) = (false, qRepeat x t :: (normInner db t x np).2) := by
  simp [normOuter, hd, hin]

theorem normOuter_false_iff (db : NormDb) (t : String) (np xs : List String) :
    (normOuter db t np xs).1 = false ↔
      ∃ x ∈ xs, (db.exec2 (qRepeat x t)).2 ≠ (db.exec2 (qRepeat x t)).1 ∧
        ∃ y ∈ np, y ≠ x ∧ (db.exec2 (qPair x y t)).1 = (db.exec2 (qPair x y t)).2 := by
  induction xs with
  | nil => simp [normOuter]
  | cons x xs ih =>
    by_cases hd : (db.exec2 (qRepeat x t)).2 = (db.exec2 (qRepeat x t)).1
    · rw [normOuter_skipEq db t np x xs hd]
      rw [show ((normOuter db t np xs).1, qRepeat x t :: (normOuter db t np xs).2).1 =
        (normOuter db t np xs).1 from rfl, ih]
      constructor
      · rintro ⟨z, hz, hzd, hzy⟩
        exact ⟨z, List.mem_cons_of_mem _ hz, hzd, hzy⟩
      · rintro ⟨z, hz, hzd, hzy⟩
        rcases List.mem_cons.mp hz with h | h
        · subst h; exact absurd hd hzd
        · exact ⟨z, h, hzd, hzy⟩
    · by_cases hin : (normInner db t x np).1 = true
      · rw [normOuter_innerOk db t np x xs hd hin]
        rw [show ((normOuter db t np xs).1,
          (qRepeat x t :: (normInner db t x np).2) ++ (normOuter db t np xs).2).1 =
          (normOuter db t np xs).1 from rfl, ih]
        have hnone := (not_iff_not.mpr (normInner_false_iff db t x np)).mp
          (by simp [hin])
        push_neg at hnone
        constructor
        · rintro ⟨z, hz, hzd, hzy⟩
          exact ⟨z, List.mem_cons_of_mem _ hz, hzd, hzy⟩
        · rintro ⟨z, hz, hzd, hzy⟩
          rcases List.mem_cons.mp hz with h | h
          · subst h
            obtain ⟨y, hy, hyx, hyq⟩ := hzy
            exact absurd hyq (hnone y hy hyx)
          · exact ⟨z, h, hzd, hzy⟩
      · have hin' : (normInner db t x np).1 = false := by
          cases hf : (normInner db t x np).1
          · rfl
          · exact absurd hf hin
        rw [normOuter_innerBad db t np x xs hd hin']
        obtain ⟨y, hy, hyx, hyq⟩ := (normInner_false_iff db t x np).mp hin'
        exact ⟨fun _ => ⟨x, List.mem_cons_self _ _, hd, y, hy, hyx, hyq⟩, fun _ => rfl⟩

theorem normOuter_false_last (db : NormDb) (t : String) (np xs : List String) :
    (normOuter db t np xs).1 = false →
    ∃ x y l, x ∈ xs ∧ y ∈ np ∧ y ≠ x ∧
      (db.exec2 (qRepeat x t)).2 ≠ (db.exec2 (qRepeat x t)).1 ∧
      (db.exec2 (qPair x y t)).1 = (db.exec2 (qPair x y t)).2 ∧
      (normOuter db t np xs).2 = l ++ [qPair x y t] := by
  induction xs with
  | nil => simp [normOuter]
  | cons x xs ih =>
    intro h
    by_cases hd : (db.exec2 (qRepeat x t)).2 = (db.exec2 (qRepeat x t)).1
    · rw [normOuter_skipEq db t np x xs hd] at h ⊢
      obtain ⟨z, y, l, hz, hy, hyz, hzd, hzq, hlog⟩ := ih h
      exact ⟨z, y, qRepeat x t :: l, List.mem_cons_of_mem _ hz, hy, hyz, hzd, hzq,
        by simp [hlog]⟩
    · by_cases hin : (normInner db t x np).1 = true
      · rw [normOuter_innerOk db t np x xs hd hin] at h ⊢
        obtain ⟨z, y, l, hz, hy, hyz, hzd, hzq, hlog⟩ := ih h
        refine ⟨z, y, (qRepeat x t :: (normInner db t x np).2) ++ l,
          List.mem_cons_of_mem _ hz, hy, hyz, hzd, hzq, ?_⟩
        simp [hlog]
      · have hin' : (normInner db t x np).1 = false := by
          cases hf : (normInner db t x np).1
          · rfl
          · exact absurd hf hin
        rw [normOuter_innerBad db t np x xs hd hin']
        obtain ⟨y, l, hy, hyx, hyq, hlog⟩ := normInner_false_last db t x np hin'
        exact ⟨x, y, qRepeat x t :: l, List.mem_cons_self _ _, hy, hyx, hd, hyq,
          by simp [hlog]⟩

/-- C2: `check_normalization` returns "N" iff some non-key column `X`
repeats (its distinct count is strictly below the row count) and some other
non-key column `Y` has as many distinct `(X, Y)` pairs as distinct `X`
values; and when the verdict is "N" the scan stopped at the first violation:
the last query issued is the violating pair probe, with nothing after it.
The hypotheses say the oracle behaves like a real database on the probed
columns: a distinct count never exceeds the row count, and the
`COUNT(DISTINCT x)` reported by a pair query agrees with the one reported by
the repeat query. -/
theorem c2_norm_violation (db : NormDb) (t : String) (pk : Option String)
    (cols : List String)
    (hle : ∀ c ∈ non_pk pk cols,
      (db.exec2 (qRepeat c t)).2 ≤ (db.exec2 (qRepeat c t)).1)
    (hcons : ∀ x ∈ non_pk pk cols, ∀ y ∈ non_pk pk cols, y ≠ x →
      (db.exec2 (qPair x y t)).2 = (db.exec2 (qRepeat x t)).2) :
    ((check_normalization db t pk cols).1 = "N" ↔
      ∃ x ∈ non_pk pk cols, ∃ y ∈ non_pk pk cols, y ≠ x ∧
        (db.exec2 (qRepeat x t)).2 < (db.exec2 (qRepeat x t)).1 ∧
        (db.exec2 (qPair x y t)).1 = (db.exec2 (qRepeat x t)).2) ∧
    ((check_normalization db t pk cols).1 = "N" →
      ∃ x ∈ non_pk pk cols, ∃ y ∈ non_pk pk cols, ∃ l, y ≠ x ∧
        (db.exec2 (qRepeat x t)).2 < (db.exec2 (qRepeat x t)).1 ∧
        (db.exec2 (qPair x y t)).1 = (db.exec2 (qRepeat x t)).2 ∧
        (check_normalization db t pk cols).2 = l ++ [qPair x y t]) := by
  have hv : (check_normalization db t pk cols).1 =
      (if (normOuter db t (non_pk pk cols) (non_pk pk cols)).1 then "Y" else "N") := rfl
  have hl : (check_normalization db t pk cols).2 =
      (normOuter db t (non_pk pk cols) (non_pk pk cols)).2 := rfl
  constructor
  · rw [hv, verdict_eq_N, normOuter_false_iff]
    constructor
    · rintro ⟨x, hx, hxd, y, hy, hyx, hyq⟩
      exact ⟨x, hx, y, hy, hyx, lt_of_le_of_ne (hle x hx) hxd,
        hyq.trans (hcons x hx y hy hyx)⟩
    · rintro ⟨x, hx, y, hy, hyx, hlt, hq⟩
      exact ⟨x, hx, ne_of_lt hlt, y, hy, hyx,
        hq.trans (hcons x hx y hy hyx).symm⟩
  · rw [hv, verdict_eq_N]
    intro h
    obtain ⟨x, y, l, hx, hy, hyx, hxd, hq, hlog⟩ :=
      normOuter_false_last db t (non_pk pk cols) (non_pk pk cols) h
    exact ⟨x, hx, y, hy, l, hyx, lt_of_le_of_ne (hle x hx) hxd,
      hq.trans (hcons x hx y hy hyx), hl ▸ hlog⟩

/-- A concrete normalization oracle: table `t(a(pk), b, c)` with 2 rows,
`b` repeating and determining `c`. -/
def normDbC2 : NormDb :=
  ⟨fun s =>
    if s = qRepeat "b" "t" then (2, 1)
    else if s = qRepeat "c" "t" then (2, 2)
    else if s = qPair "b" "c" "t" then (1, 1)
    else if s = qPair "c" "b" "t" then (2, 2)
    else (0, 0)⟩

/-- Witness for C2: on the concrete oracle the verdict is "N", via the
theorem's equivalence applied at `x = "b"`, `y = "c"`. -/
theorem c2_norm_violation_witness :
    (check_normalization normDbC2 "t" (some "a") ["a", "b", "c"]).1 = "N" := by
  have h := c2_norm_violation normDbC2 "t" (some "a") ["a", "b", "c"]
    (by decide) (by decide)
  exact h.1.mpr ⟨"b", by decide, "c", by decide, by decide, by decide, by decide⟩

theorem normOuter_all_distinct (db : NormDb) (t : String) (np : List String)
    (xs : List String)
    (h : ∀ x ∈ xs, (db.exec2 (qRepeat x t)).2 = (db.exec2 (qRepeat x t)).1) :
    normOuter db t np xs = (true, xs.map (fun x => qRepeat x t)) := by
  induction xs with
  | nil => simp [normOuter]
  | cons x xs ih =>
    have hx := h x (List.mem_cons_self _ _)
    have ih' := ih (fun z hz => h z (List.mem_cons_of_mem _ hz))
    simp [normOuter, if_pos hx, ih']

/-- C8: `check_normalization` returns "Y" whenever every non-key column's
distinct count equals the row count, and then issues only the per-column
repeat queries (no FD pair probe); and it returns "Y" issuing no query at
all when there are no non-key columns. -/
theorem c8_norm_trivial_yes :
    (∀ (db : NormDb) (t : String) (pk : Option String) (cols : List String),
      (∀ c ∈ non_pk pk cols,
        (db.exec2 (qRepeat c t)).2 = (db.exec2 (qRepeat c t)).1) →
      check_normalization db t pk cols =
        ("Y", (non_pk pk cols).map (fun c => qRepeat c t))) ∧
    (∀ (db : NormDb) (t : String) (pk : Option String) (cols : List String),
      non_pk pk cols = [] →
      check_normalization db t pk cols = ("Y", [])) := by
  have e : ∀ (db : NormDb) (t : String) (pk : Option String) (cols : List String),
      check_normalization db t pk cols =
        ((if (normOuter db t (non_pk pk cols) (non_pk pk cols)).1 then "Y" else "N"),
          (normOuter db t (non_pk pk cols) (non_pk pk cols)).2) :=
    fun _ _ _ _ => rfl
  constructor
  · intro db t pk cols h
    rw [e, normOuter_all_distinct db t _ _ h]
    rfl
  · intro db t pk cols h
    rw [e, h]
    rfl

/-- A degenerate oracle on which every count pair is `(0, 0)`. -/
def normDbZero : NormDb := ⟨fun _ => (0, 0)⟩

/-- Witness for C8: both parts applied at concrete inputs — all-distinct
columns give "Y" with only repeat queries; a table whose only column is the
key gives "Y" with no query. -/
theorem c8_norm_trivial_yes_witness :
    check_normalization normDbZero "t" (some "a") ["a", "b"] =
      ("Y", [qRepeat "b" "t"]) ∧
    check_normalization normDbZero "t" (some "a") ["a"] = ("Y", []) := by
  constructor
  · exact (c8_norm_trivial_yes.1 normDbZero "t" (some "a") ["a", "b"] (by decide)).trans
      (by decide)
  · exact c8_norm_trivial_yes.2 normDbZero "t" (some "a") ["a"] (by decide)

/-! ### Invariants of the column-token loop -/

/-- Facts the column-token loop maintains: `seen` is the membership set of
`cols`; a column occurring at least twice has its "duplicate column"
diagnostic recorded; every PK candidate is a column; the empty string is
never a column. -/
def scanInv (st : ScanSt) : Prop :=
  (∀ c, c ∈ st.seen ↔ c ∈ st.cols) ∧
  (∀ c, 2 ≤ st.cols.count c → ("duplicate column " ++ c) ∈ st.errors) ∧
  (∀ p ∈ st.pkCandidates, p ∈ st.cols) ∧
  "" ∉ st.cols

theorem matchColToken_some (part : List Char) (c : List Char) (a : Option (List Char))
    (h : matchColToken part = some (c, a)) :
    c = part.takeWhile isIdentChar ∧ part.takeWhile isIdentChar ≠ [] := by
  simp only [matchColToken] at h
  split at h
  · exact absurd h (by simp)
  next hi =>
    have hne : part.takeWhile isIdentChar ≠ [] := by
      intro he
      exact hi (by simp [he])
    split at h
    · simp only [Option.some.injEq, Prod.mk.injEq] at h
      exact ⟨h.1.symm, hne⟩
    · split at h
      · split at h
        · exact absurd h (by simp)
        · split at h
          · exact absurd h (by simp)
          · simp only [Option.some.injEq, Prod.mk.injEq] at h
            exact ⟨h.1.symm, hne⟩
      · exact absurd h (by simp)
    · exact absurd h (by simp)

theorem applyAnn_cols (st : ScanSt) (col : String) (a : Option (List Char)) :
    (applyAnn st col a).cols = st.cols := by
  cases a with
  | none => rfl
  | some ann =>
    simp only [applyAnn]
    repeat' split
    all_goals rfl

theorem applyAnn_seen (st : ScanSt) (col : String) (a : Option (List Char)) :
    (applyAnn st col a).seen = st.seen := by
  cases a with
  | none => rfl
  | some ann =>
    simp only [applyAnn]
    repeat' split
    all_goals rfl

theorem applyAnn_errors (st : ScanSt) (col : String) (a : Option (List Char)) :
    ∀ e ∈ st.errors, e ∈ (applyAnn st col a).errors := by
  cases a with
  | none => exact fun e he => he
  | some ann =>
    simp only [applyAnn]
    repeat' split
    all_goals intro e he
    all_goals first
      | exact he
      | exact List.mem_append_left _ he

theorem applyAnn_pkCandidates (st : ScanSt) (col : String) (a : Option (List Char)) :
    (applyAnn st col a).pkCandidates = st.pkCandidates ∨
    (applyAnn st col a).pkCandidates = st.pkCandidates ++ [col] := by
  cases a with
  | none => exact Or.inl rfl
  | some ann =>
    simp only [applyAnn]
    repeat' split
    all_goals first
      | exact Or.inl rfl
      | exact Or.inr rfl

theorem addCol_cols (st : ScanSt) (col : String) :
    (addCol st col).cols = st.cols ++ [col] := rfl

theorem addCol_pkCandidates (st : ScanSt) (col : String) :
    (addCol st col).pkCandidates = st.pkCandidates := rfl

theorem addCol_seen_pos (st : ScanSt) (col : String)
    (hc : st.seen.contains col = true) : (addCol st col).seen = st.seen := by
  show (if st.seen.contains col = true then st.seen else st.seen ++ [col]) = st.seen
  rw [if_pos hc]

theorem addCol_seen_neg (st : ScanSt) (col : String)
    (hc : ¬st.seen.contains col = true) :
    (addCol st col).seen = st.seen ++ [col] := by
  show (if st.seen.contains col = true then st.seen else st.seen ++ [col]) = st.seen ++ [col]
  rw [if_neg hc]

theorem addCol_errors_pos (st : ScanSt) (col : String)
    (hc : st.seen.contains col = true) :
    (addCol st col).errors = st.errors ++ ["duplicate column " ++ col] := by
  show (if st.seen.contains col = true
      then st.errors ++ ["duplicate column " ++ col] else st.errors) =
    st.errors ++ ["duplicate column " ++ col]
  rw [if_pos hc]

theorem addCol_errors_neg (st : ScanSt) (col : String)
    (hc : ¬st.seen.contains col = true) :
    (addCol st col).errors = st.errors := by
  show (if st.seen.contains col = true
      then st.errors ++ ["duplicate column " ++ col] else st.errors) = st.errors
  rw [if_neg hc]

theorem addCol_inv (st : ScanSt) (col : String) (hcol : col ≠ "")
    (h : scanInv st) : scanInv (addCol st col) := by
  obtain ⟨hs, hd, hp, he⟩ := h
  have hnotnil : "" ∉ st.cols ++ [col] := by
    intro h'
    rcases List.mem_append.mp h' with h' | h'
    · exact he h'
    · exact hcol (List.mem_singleton.mp h').symm
  by_cases hc : st.seen.contains col = true
  · have hcolsMem : col ∈ st.cols := (hs col).mp (List.elem_iff.mp hc)
    refine ⟨?_, ?_, ?_, hnotnil⟩
    · intro c
      rw [addCol_seen_pos st col hc, addCol_cols]
      rw [List.mem_append, List.mem_singleton]
      constructor
      · intro h'
        exact Or.inl ((hs c).mp h')
      · rintro (h' | rfl)
        · exact (hs c).mpr h'
        · exact (hs _).mpr hcolsMem
    · intro c hcnt
      rw [addCol_cols] at hcnt
      rw [addCol_errors_pos st col hc]
      by_cases hcc : c = col
      · subst hcc
        exact List.mem_append_right _ (List.mem_singleton.mpr rfl)
      · have hz : List.count c [col] = 0 :=
          List.count_eq_zero.mpr (by simp [hcc])
        rw [List.count_append, hz] at hcnt
        exact List.mem_append_left _ (hd c (by omega))
    · intro p hp'
      rw [addCol_pkCandidates] at hp'
      rw [addCol_cols]
      exact List.mem_append_left _ (hp p hp')
  · refine ⟨?_, ?_, ?_, hnotnil⟩
    · intro c
      rw [addCol_seen_neg st col hc, addCol_cols]
      rw [List.mem_append, List.mem_singleton, List.mem_append, List.mem_singleton]
      exact or_congr_left (hs c)
    · intro c hcnt
      rw [addCol_cols] at hcnt
      rw [addCol_errors_neg st col hc]
      by_cases hcc : c = col
      · subst hcc
        rw [List.count_append] at hcnt
        have h1 : List.count c [c] = 1 := by simp
        have h2 : 1 ≤ List.count c st.cols := by omega
        have hmem : c ∈ st.cols := List.count_pos_iff.mp h2
        exact absurd (List.elem_iff.mpr ((hs c).mpr hmem)) hc
      · have hz : List.count c [col] = 0 :=
          List.count_eq_zero.mpr (by simp [hcc])
        rw [List.count_append, hz] at hcnt
        exact hd c (by omega)
    · intro p hp'
      rw [addCol_pkCandidates] at hp'
      rw [addCol_cols]
      exact List.mem_append_left _ (hp p hp')

theorem processPart_inv (st : ScanSt) (part : List Char) (h : scanInv st) :
    scanInv (processPart st part) := by
  unfold processPart
  cases hm : matchColToken part with
  | none =>
    obtain ⟨hs, hd, hp, he⟩ := h
    exact ⟨hs, fun c hc => List.mem_append_left _ (hd c hc), hp, he⟩
  | some pr =>
    obtain ⟨colC, annO⟩ := pr
    obtain ⟨hcEq, hcNe⟩ := matchColToken_some part colC annO hm
    have hcol : String.mk (pyLower colC) ≠ "" := by
      intro hcontr
      have hdata := congrArg String.data hcontr
      have : pyLower colC = [] := hdata
      exact absurd (List.map_eq_nil_iff.mp this) (hcEq ▸ hcNe)
    have h1 := addCol_inv st (String.mk (pyLower colC)) hcol h
    obtain ⟨hs1, hd1, hp1, he1⟩ := h1
    refine ⟨?_, ?_, ?_, ?_⟩
    · intro c
      rw [applyAnn_seen, applyAnn_cols]
      exact hs1 c
    · intro c hc
      rw [applyAnn_cols] at hc
      exact applyAnn_errors _ _ _ _ (hd1 c hc)
    · intro p hp'
      rw [applyAnn_cols]
      rcases applyAnn_pkCandidates (addCol st (String.mk (pyLower colC)))
          (String.mk (pyLower colC)) annO with hpk | hpk
      · rw [hpk] at hp'
        exact hp1 p hp'
      · rw [hpk] at hp'
        rcases List.mem_append.mp hp' with h' | h'
        · exact hp1 p h'
        · rw [List.mem_singleton.mp h']
          exact List.mem_append_right _ (List.mem_singleton.mpr rfl)
    · rw [applyAnn_cols]
      exact he1

theorem foldl_processPart_inv (parts : List (List Char)) :
    ∀ st, scanInv st → scanInv (parts.foldl processPart st) := by
  induction parts with
  | nil => exact fun st h => h
  | cons p ps ih => exact fun st h => ih _ (processPart_inv st p h)

theorem scanParts_inv (parts : List (List Char)) : scanInv (scanParts parts) :=
  foldl_processPart_inv parts ⟨[], [], [], [], []⟩
    ⟨by simp, by simp, by simp, by simp⟩

/-! ### Facts about `finalizeTable` and the per-table invariant -/

theorem finalizeTable_cols (tbl : String) (st : ScanSt) :
    (finalizeTable tbl st).cols = st.cols := rfl

theorem finalizeTable_pk (tbl : String) (st : ScanSt) :
    (finalizeTable tbl st).pk =
      (match st.pkCandidates with | [c] => some c | _ => none) := rfl

theorem finalizeTable_fks (tbl : String) (st : ScanSt) :
    (finalizeTable tbl st).fks =
      if 3 < st.fks.length then st.fks.take 3 else st.fks := rfl

theorem finalizeTable_errors_mono (tbl : String) (st : ScanSt) (e : String)
    (he : e ∈ st.errors) : e ∈ (finalizeTable tbl st).errors := by
  simp only [finalizeTable]
  split
  · split
    · exact List.mem_append_left _ (List.mem_append_left _ he)
    · exact List.mem_append_left _ he
  · split
    · exact List.mem_append_left _ he
    · exact he

theorem finalizeTable_pk_some (tbl : String) (st : ScanSt) (p : String)
    (h : (finalizeTable tbl st).pk = some p) : st.pkCandidates = [p] := by
  rw [finalizeTable_pk] at h
  rcases hc : st.pkCandidates with _ | ⟨c, cs⟩
  · rw [hc] at h
    simp at h
  · rcases cs with _ | ⟨c2, cs2⟩
    · rw [hc] at h
      simp only [Option.some.injEq] at h
      subst h
      rfl
    · rw [hc] at h
      simp at h

theorem finalizeTable_fks_le (tbl : String) (st : ScanSt) :
    (finalizeTable tbl st).fks.length ≤ 3 := by
  rw [finalizeTable_fks]
  split
  all_goals first
    | simp [List.length_take]
    | omega

/-- The per-table invariant: repeated columns carry their diagnostic, a
declared primary key is one of the columns, the empty string is never a
column, and at most 3 foreign keys are kept. -/
def tableInv (t : TableD) : Prop :=
  (∀ c, 2 ≤ t.cols.count c → ("duplicate column " ++ c) ∈ t.errors) ∧
  (∀ p, t.pk = some p → p ∈ t.cols) ∧
  "" ∉ t.cols ∧
  t.fks.length ≤ 3

theorem finalizeTable_inv (tbl : String) (st : ScanSt) (h : scanInv st) :
    tableInv (finalizeTable tbl st) := by
  obtain ⟨hs, hd, hp, he⟩ := h
  refine ⟨?_, ?_, ?_, finalizeTable_fks_le tbl st⟩
  · intro c hc
    rw [finalizeTable_cols] at hc
    exact finalizeTable_errors_mono tbl st _ (hd c hc)
  · intro p hpk
    rw [finalizeTable_cols]
    have := finalizeTable_pk_some tbl st p hpk
    exact hp p (this ▸ List.mem_singleton.mpr rfl)
  · rw [finalizeTable_cols]
    exact he

theorem placeholderT_inv (n : Nat) : tableInv (placeholderT n) := by
  refine ⟨?_, ?_, ?_, ?_⟩ <;> simp [placeholderT]

theorem processBody_inv (tbl : String) (g2 : List Char) :
    tableInv (processBody tbl g2) := by
  simp only [processBody]
  split
  · refine ⟨?_, ?_, ?_, ?_⟩ <;> simp
  · exact finalizeTable_inv tbl _ (scanParts_inv _)

theorem processLine_inv (n : Nat) (raw : List Char) (t : TableD)
    (eo : Option String) (h : processLine n raw = some (t, eo)) : tableInv t := by
  simp only [processLine] at h
  split at h
  · exact absurd h (by simp)
  · split at h
    · exact absurd h (by simp)
    · split at h
      · simp only [Option.some.injEq, Prod.mk.injEq] at h
        rw [← h.1]
        exact placeholderT_inv n
      · simp only [Option.some.injEq, Prod.mk.injEq] at h
        rw [← h.1]
        exact processBody_inv _ _

theorem parseLinesGo_inv (lines : List (List Char)) :
    ∀ n t, t ∈ (parseLinesGo n lines).1 → tableInv t := by
  induction lines with
  | nil =>
    intro n t h
    simp [parseLinesGo] at h
  | cons raw rest ih =>
    intro n t h
    cases hp : processLine n raw with
    | none =>
      simp only [parseLinesGo, hp] at h
      exact ih (n + 1) t h
    | some pr =>
      obtain ⟨t0, eo⟩ := pr
      cases eo with
      | none =>
        simp only [parseLinesGo, hp] at h
        rcases List.mem_cons.mp h with h | h
        · subst h
          exact processLine_inv n raw t none hp
        · exact ih (n + 1) t h
      | some e =>
        simp only [parseLinesGo, hp] at h
        rcases List.mem_cons.mp h with h | h
        · subst h
          exact processLine_inv n raw t (some e) hp
        · exact ih (n + 1) t h

/-- Every table record a parse produces satisfies the per-table invariant. -/
theorem parse_inv (text : String) (t : TableD)
    (h : t ∈ (parse_schema_text text).1) : tableInv t :=
  parseLinesGo_inv (pySplitlines text.toList) 1 t h

theorem finalizeTable_single_found (tbl : String) (st : ScanSt) (c : String)
    (hpk : st.pkCandidates = [c]) (hmem : c ∈ st.cols) :
    (finalizeTable tbl st).pk = some c ∧ (finalizeTable tbl st).composite = false ∧
    (finalizeTable tbl st).skip = false := by
  have hcont : st.cols.contains c = true := List.elem_iff.mpr hmem
  have hnonempty : st.cols.isEmpty = false := by
    rcases hcols : st.cols with _ | _
    · rw [hcols] at hmem
      exact absurd hmem (List.not_mem_nil c)
    · rfl
  refine ⟨by rw [finalizeTable_pk, hpk], ?_, ?_⟩
  · simp only [finalizeTable, hpk]
  · simp only [finalizeTable, hpk]
    simp [hcont, hnonempty]
    exact fun _ => hmem

theorem finalizeTable_not_single (tbl : String) (st : ScanSt)
    (h : st.pkCandidates.length ≠ 1) :
    (finalizeTable tbl st).pk = none ∧ (finalizeTable tbl st).composite = true ∧
    (finalizeTable tbl st).skip = true := by
  rcases hc : st.pkCandidates with _ | ⟨c, cs⟩
  · exact ⟨by simp [finalizeTable, hc], by simp [finalizeTable, hc],
      by simp [finalizeTable, hc]⟩
  · rcases cs with _ | ⟨c2, cs2⟩
    · rw [hc] at h
      simp at h
    · exact ⟨by simp [finalizeTable, hc], by simp [finalizeTable, hc],
        by simp [finalizeTable, hc]⟩

/-- C3 counterexample: on the input `t(a(pk), b, b)` the duplicated token
`b` appears twice in `columns`, not once — the parser appends every parsed
token to `cols` unconditionally (line 86) — while the "duplicate column"
diagnostic is recorded. -/
theorem c3_counterexample :
    (parse_schema_text "t(a(pk), b, b)").1 =
      [{ table := "t", pk := some "a", cols := ["a", "b", "b"], fks := [],
         composite := false, skip := false, errors := ["duplicate column b"] }] ∧
    ¬ (["a", "b", "b"] : List String).count "b" = 1 := by
  constructor
  · decide
  · decide

/-- C3 (amended): a column token that duplicates an earlier column name in
the same table is appended to `columns` again — it appears as many times as
it was declared, so at least twice — and the "duplicate column" diagnostic
is recorded in that table's errors.  Stated as: any column occurring at
least twice in a parsed table's `columns` has its diagnostic in `errors`. -/
theorem c3_duplicate_diagnosed (text : String) (t : TableD)
    (ht : t ∈ (parse_schema_text text).1) (c : String)
    (hc : 2 ≤ t.cols.count c) : ("duplicate column " ++ c) ∈ t.errors :=
  (parse_inv text t ht).1 c hc

/-- Witness for the amended C3 at the concrete input `t(a(pk), b, b)`. -/
theorem c3_duplicate_diagnosed_witness :
    ("duplicate column " ++ "b") ∈
      ({ table := "t", pk := some "a", cols := ["a", "b", "b"], fks := [],
         composite := false, skip := false,
         errors := ["duplicate column b"] } : TableD).errors :=
  c3_duplicate_diagnosed "t(a(pk), b, b)" _ (by decide) "b" (by decide)

/-- C9: in every table record the parser produces, a present `primary_key`
is a member of `columns`; and the skip-determination code (lines 131–135)
turns a declared-but-absent nonempty key into `skip = true` plus the
"pk not found in cols" error. -/
theorem c9_pk_in_cols :
    (∀ (text : String), ∀ t ∈ (parse_schema_text text).1,
      ∀ p, t.pk = some p → p ∈ t.cols) ∧
    (∀ (tbl p : String) (st : ScanSt), st.pkCandidates = [p] → p ≠ "" →
      p ∉ st.cols →
      (finalizeTable tbl st).skip = true ∧
      "pk not found in cols" ∈ (finalizeTable tbl st).errors) := by
  constructor
  · intro text t ht p hp
    exact (parse_inv text t ht).2.1 p hp
  · intro tbl p st hpk hp0 hmem
    have hcont : st.cols.contains p = false := by
      rw [Bool.eq_false_iff]
      intro hcc
      exact hmem (List.elem_iff.mp hcc)
    constructor
    · simp only [finalizeTable, hpk]
      simp [hcont, hp0]
      exact Or.inl hmem
    · simp only [finalizeTable, hpk]
      simp [hcont, hp0]
      rw [if_neg hmem]
      exact List.mem_append_right _ (List.mem_singleton.mpr rfl)

/-- Witness for C9: part 1 at the parse of `t(a(pk), b)` with key `a`;
part 2 at a loop state declaring key `z` absent from the columns. -/
theorem c9_pk_in_cols_witness :
    ("a" : String) ∈ ["a", "b"] ∧
    ((finalizeTable "t" ⟨["x"], [], ["z"], [], ["x"]⟩).skip = true ∧
      "pk not found in cols" ∈ (finalizeTable "t" ⟨["x"], [], ["z"], [], ["x"]⟩).errors) := by
  constructor
  · have h := c9_pk_in_cols.1 "t(a(pk), b)"
      { table := "t", pk := some "a", cols := ["a", "b"], fks := [],
        composite := false, skip := false, errors := [] }
      (by decide) "a" (by decide)
    exact h
  · exact c9_pk_in_cols.2 "t" "z" ⟨["x"], [], ["z"], [], ["x"]⟩ (by decide)
      (by decide) (by decide)

/-- C7: every parsed table keeps at most 3 foreign keys; and whenever the
token scan collected more than 3, exactly the first 3 in declaration order
are retained and the error "more than 3 FKs found; only first 3 kept" is
appended to the table's errors. -/
theorem c7_fk_cap :
    (∀ (text : String), ∀ t ∈ (parse_schema_text text).1, t.fks.length ≤ 3) ∧
    (∀ (tbl : String) (st : ScanSt), 3 < st.fks.length →
      (finalizeTable tbl st).fks = st.fks.take 3 ∧
      "more than 3 FKs found; only first 3 kept" ∈ (finalizeTable tbl st).errors) := by
  constructor
  · intro text t ht
    exact (parse_inv text t ht).2.2.2
  · intro tbl st h3
    constructor
    · rw [finalizeTable_fks, if_pos h3]
    · simp only [finalizeTable, h3, if_true]
      split
      · exact List.mem_append_left _
          (List.mem_append_right _ (List.mem_singleton.mpr rfl))
      · exact List.mem_append_right _ (List.mem_singleton.mpr rfl)

/-- Witness for C7: part 1 on the parse of a 4-FK table line (3 kept);
part 2 on a loop state holding 4 collected FK records. -/
theorem c7_fk_cap_witness :
    ({ table := "t2", pk := some "a",
       cols := ["a", "b", "c", "d", "e"],
       fks := [⟨some "b", some "x", some "y"⟩, ⟨some "c", some "x", some "z"⟩,
               ⟨some "d", some "x", some "w"⟩],
       composite := false, skip := false,
       errors := ["more than 3 FKs found; only first 3 kept"] } : TableD).fks.length ≤ 3 ∧
    ((finalizeTable "t" ⟨[], [⟨some "a", none, none⟩, ⟨some "b", none, none⟩,
        ⟨some "c", none, none⟩, ⟨some "d", none, none⟩], [], [], []⟩).fks =
      [⟨some "a", none, none⟩, ⟨some "b", none, none⟩, ⟨some "c", none, none⟩] ∧
     "more than 3 FKs found; only first 3 kept" ∈
      (finalizeTable "t" ⟨[], [⟨some "a", none, none⟩, ⟨some "b", none, none⟩,
        ⟨some "c", none, none⟩, ⟨some "d", none, none⟩], [], [], []⟩).errors) := by
  constructor
  · exact c7_fk_cap.1 "t2(a(pk), b(fk:x.y), c(fk:x.z), d(fk:x.w), e(fk:x.v))" _ (by decide)
  · have h := c7_fk_cap.2 "t" ⟨[], [⟨some "a", none, none⟩, ⟨some "b", none, none⟩,
      ⟨some "c", none, none⟩, ⟨some "d", none, none⟩], [], [], []⟩ (by decide)
    exact ⟨h.1.trans (by decide), h.2⟩

/-- C6: primary-key resolution and skip determination for a parsed table
line: exactly one `(pk)`-annotated column together with at least one other
column and no recorded errors gives `composite = false`, that column as the
primary key and `skip = false`; zero or more than one `(pk)` annotation
gives `primary_key = None`, `composite = true`, `skip = true`. -/
theorem c6_pk_resolution :
    (∀ (tbl : String) (inside : List Char) (c : String),
      (scanParts (partsOf (pyStrip inside))).pkCandidates = [c] →
      (scanParts (partsOf (pyStrip inside))).errors = [] →
      2 ≤ (scanParts (partsOf (pyStrip inside))).cols.length →
      (processBody tbl inside).composite = false ∧
      (processBody tbl inside).pk = some c ∧
      (processBody tbl inside).skip = false) ∧
    (∀ (tbl : String) (inside : List Char),
      (scanParts (partsOf (pyStrip inside))).pkCandidates.length ≠ 1 →
      (processBody tbl inside).pk = none ∧
      (processBody tbl inside).composite = true ∧
      (processBody tbl inside).skip = true) := by
  constructor
  · intro tbl inside c hpk herr hlen
    have hne : ¬(pyStrip inside).isEmpty = true := by
      intro he
      rw [List.isEmpty_iff] at he
      rw [he] at hpk
      have h0 : (scanParts (partsOf ([] : List Char))).pkCandidates = [] := by decide
      rw [h0] at hpk
      exact List.noConfusion hpk
    have hbody : processBody tbl inside =
        finalizeTable tbl (scanParts (partsOf (pyStrip inside))) := by
      simp only [processBody]
      rw [if_neg hne]
    have hmem : c ∈ (scanParts (partsOf (pyStrip inside))).cols :=
      (scanParts_inv _).2.2.1 c (hpk ▸ List.mem_singleton.mpr rfl)
    obtain ⟨h1, h2, h3⟩ := finalizeTable_single_found tbl _ c hpk hmem
    rw [hbody]
    exact ⟨h2, h1, h3⟩
  · intro tbl inside hn
    by_cases he : (pyStrip inside).isEmpty = true
    · have hbody : processBody tbl inside =
          { table := tbl, pk := none, cols := [], fks := [], composite := true,
            skip := true, errors := ["no columns found"] } := by
        simp only [processBody]
        rw [if_pos he]
      rw [hbody]
      exact ⟨rfl, rfl, rfl⟩
    · have hbody : processBody tbl inside =
          finalizeTable tbl (scanParts (partsOf (pyStrip inside))) := by
        simp only [processBody]
        rw [if_neg he]
      rw [hbody]
      exact finalizeTable_not_single tbl _ hn

/-- Witness for C6: part 1 at the body `a(pk), b`, part 2 at the body
`a(pk), b(pk)` (two PK annotations). -/
theorem c6_pk_resolution_witness :
    ((processBody "t" "a(pk), b".toList).composite = false ∧
     (processBody "t" "a(pk), b".toList).pk = some "a" ∧
     (processBody "t" "a(pk), b".toList).skip = false) ∧
    ((processBody "t" "a(pk), b(pk)".toList).pk = none ∧
     (processBody "t" "a(pk), b(pk)".toList).composite = true ∧
     (processBody "t" "a(pk), b(pk)".toList).skip = true) := by
  constructor
  · exact c6_pk_resolution.1 "t" "a(pk), b".toList "a" (by decide) (by decide) (by decide)
  · exact c6_pk_resolution.2 "t" "a(pk), b(pk)".toList (by decide)

/-! ### Line-level facts for the parse totality claim -/

theorem processLine_none_of_not_real (n : Nat) (raw : List Char)
    (h : isRealLine raw = false) : processLine n raw = none := by
  by_cases h1 : (pyStrip raw).isEmpty = true
  · simp only [processLine]
    rw [if_pos h1]
  · by_cases h2 : ((pyStrip raw).take 2 = "--".toList ||
        (pyStrip raw).take 1 = "#".toList) = true
    · simp only [processLine]
      rw [if_neg h1, if_pos h2]
    · exfalso
      apply absurd h
      simp only [isRealLine]
      rw [Bool.eq_false_iff.mpr h1, Bool.eq_false_iff.mpr h2]
      simp

theorem processLine_some_of_real (n : Nat) (raw : List Char)
    (h : isRealLine raw = true) : processLine n raw ≠ none := by
  simp only [isRealLine, Bool.and_eq_true, Bool.not_eq_true'] at h
  obtain ⟨h1, h2⟩ := h
  simp only [processLine, h1, h2]
  try simp only [Bool.false_eq_true, if_false]
  split <;> simp

theorem processLine_bad (n : Nat) (raw : List Char)
    (hreal : isRealLine raw = true)
    (hbad : matchTableLine (pyStrip raw) = none) :
    processLine n raw = some (placeholderT n, some (lineErr n raw)) := by
  simp only [isRealLine, Bool.and_eq_true, Bool.not_eq_true'] at hreal
  obtain ⟨h1, h2⟩ := hreal
  simp only [processLine, h1, h2, hbad]
  simp

theorem parseLinesGo_length (lines : List (List Char)) :
    ∀ n, (parseLinesGo n lines).1.length = (lines.filter isRealLine).length := by
  induction lines with
  | nil =>
    intro n
    simp [parseLinesGo]
  | cons raw rest ih =>
    intro n
    cases hp : processLine n raw with
    | none =>
      have hr : isRealLine raw = false := by
        cases hf : isRealLine raw
        · rfl
        · exact absurd hp (processLine_some_of_real n raw hf)
      simp only [parseLinesGo, hp, List.filter_cons, hr, Bool.false_eq_true, if_false]
      exact ih (n + 1)
    | some pr =>
      have hr : isRealLine raw = true := by
        cases hf : isRealLine raw
        · rw [processLine_none_of_not_real n raw hf] at hp
          exact Option.noConfusion hp
        · rfl
      obtain ⟨t, eo⟩ := pr
      cases eo with
      | none =>
        simp only [parseLinesGo, hp, List.filter_cons, hr, if_true, List.length_cons]
        rw [ih (n + 1)]
      | some e =>
        simp only [parseLinesGo, hp, List.filter_cons, hr, if_true, List.length_cons]
        rw [ih (n + 1)]

theorem parseLinesGo_tail_sub (n : Nat) (raw : List Char) (rest : List (List Char)) :
    (∀ t ∈ (parseLinesGo (n + 1) rest).1, t ∈ (parseLinesGo n (raw :: rest)).1) ∧
    (∀ e ∈ (parseLinesGo (n + 1) rest).2, e ∈ (parseLinesGo n (raw :: rest)).2) := by
  cases hp : processLine n raw with
  | none =>
    simp only [parseLinesGo, hp]
    exact ⟨fun t ht => ht, fun e he => he⟩
  | some pr =>
    obtain ⟨t0, eo⟩ := pr
    cases eo with
    | none =>
      simp only [parseLinesGo, hp]
      exact ⟨fun t ht => List.mem_cons_of_mem _ ht, fun e he => he⟩
    | some e0 =>
      simp only [parseLinesGo, hp]
      exact ⟨fun t ht => List.mem_cons_of_mem _ ht, fun e he => List.mem_cons_of_mem _ he⟩

theorem parseLinesGo_bad_line (lines : List (List Char)) :
    ∀ (n i : Nat) (h : i < lines.length),
      isRealLine (lines.get ⟨i, h⟩) = true →
      matchTableLine (pyStrip (lines.get ⟨i, h⟩)) = none →
      placeholderT (n + i) ∈ (parseLinesGo n lines).1 ∧
      lineErr (n + i) (lines.get ⟨i, h⟩) ∈ (parseLinesGo n lines).2 := by
  induction lines with
  | nil =>
    intro n i h
    exact absurd h (by simp)
  | cons raw rest ih =>
    intro n i h hreal hbad
    cases i with
    | zero =>
      have hline := processLine_bad n raw hreal hbad
      simp only [parseLinesGo, hline]
      exact ⟨List.mem_cons_self _ _, List.mem_cons_self _ _⟩
    | succ j =>
      have hj : j < rest.length := by
        simp only [List.length_cons] at h
        omega
      have hrec := ih (n + 1) j hj hreal hbad
      have hsub := parseLinesGo_tail_sub n raw rest
      have harith : n + 1 + j = n + (j + 1) := by omega
      rw [harith] at hrec
      exact ⟨hsub.1 _ hrec.1, hsub.2 _ hrec.2⟩

/-- C5: for any input text the parser (a total function by construction —
it never raises) returns at least as many table records as there are
non-blank, non-comment lines; and every such line that fails the table-line
regex contributes a skipped placeholder record named after its 1-based line
number together with a global "can't parse" error. -/
theorem c5_parse_total :
    (∀ text : String,
      ((pySplitlines text.toList).filter isRealLine).length ≤
        (parse_schema_text text).1.length) ∧
    (∀ (text : String) (i : Nat) (h : i < (pySplitlines text.toList).length),
      isRealLine ((pySplitlines text.toList).get ⟨i, h⟩) = true →
      matchTableLine (pyStrip ((pySplitlines text.toList).get ⟨i, h⟩)) = none →
      placeholderT (1 + i) ∈ (parse_schema_text text).1 ∧
      lineErr (1 + i) ((pySplitlines text.toList).get ⟨i, h⟩) ∈
        (parse_schema_text text).2) := by
  constructor
  · intro text
    rw [parse_schema_text, parseLinesGo_length (pySplitlines text.toList) 1]
  · intro text i h hreal hbad
    exact parseLinesGo_bad_line (pySplitlines text.toList) 1 i h hreal hbad

/-- Witness for C5: the single-line text `???` (not a table line) yields one
record — the skipped placeholder for line 1 — and the global parse error. -/
theorem c5_parse_total_witness :
    ((pySplitlines "???".toList).filter isRealLine).length ≤
      (parse_schema_text "???").1.length ∧
    placeholderT (1 + 0) ∈ (parse_schema_text "???").1 ∧
    lineErr (1 + 0) ((pySplitlines "???".toList).get ⟨0, by decide⟩) ∈
      (parse_schema_text "???").2 := by
  refine ⟨c5_parse_total.1 "???", ?_⟩
  have h := c5_parse_total.2 "???" 0 (by decide) (by decide) (by decide)
  exact h

/-! ### Discarding of empty body tokens -/

theorem splitCommaGo_append (x y : List Char) :
    ∀ acc, splitCommaGo acc (x ++ ',' :: y) =
      splitCommaGo acc x ++ splitCommaGo [] y := by
  induction x with
  | nil =>
    intro acc
    simp only [List.nil_append, splitCommaGo, if_pos rfl]
    rfl
  | cons c x ih =>
    intro acc
    simp only [List.cons_append, splitCommaGo, List.append_eq]
    by_cases hc : c = ','
    · rw [if_pos hc, if_pos hc, ih [], List.cons_append]
    · rw [if_neg hc, if_neg hc, ih (c :: acc)]

theorem splitCommaGo_nocomma (w : List Char) (hw : ∀ c ∈ w, ¬c = ',') :
    ∀ acc, splitCommaGo acc w = [acc.reverse ++ w] := by
  induction w with
  | nil =>
    intro acc
    simp [splitCommaGo]
  | cons c cs ih =>
    intro acc
    simp only [splitCommaGo]
    rw [if_neg (hw c (List.mem_cons_self _ _))]
    rw [ih (fun d hd => hw d (List.mem_cons_of_mem _ hd)) (c :: acc)]
    simp

theorem dropWhile_ws_append_comma (v w : List Char) :
    List.dropWhile isPyWS (v ++ ',' :: w) = List.dropWhile isPyWS v ++ ',' :: w := by
  induction v with
  | nil =>
    simp [List.dropWhile_cons, isPyWS]
  | cons c cs ih =>
    rw [List.cons_append, List.dropWhile_cons, List.dropWhile_cons]
    by_cases hc : isPyWS c = true
    · rw [if_pos hc, if_pos hc]
      exact ih
    · rw [if_neg hc, if_neg hc, List.cons_append]

theorem stripR_append_comma (u y : List Char) :
    stripR (u ++ ',' :: y) = u ++ ',' :: stripR y := by
  unfold stripR
  rw [List.reverse_append, List.reverse_cons, List.append_assoc, List.singleton_append]
  rw [dropWhile_ws_append_comma]
  rw [List.reverse_append, List.reverse_cons, List.reverse_reverse]
  rw [List.append_assoc, List.singleton_append]

theorem pyStrip_append_comma (a y : List Char) :
    pyStrip (a ++ ',' :: y) = stripL a ++ ',' :: stripR y := by
  unfold pyStrip stripL
  rw [dropWhile_ws_append_comma]
  exact stripR_append_comma _ _

theorem pyStrip_ws (w : List Char) (hw : ∀ c ∈ w, isPyWS c = true) :
    pyStrip w = [] := by
  unfold pyStrip stripL
  rw [List.dropWhile_eq_nil_iff.mpr hw]
  rfl

theorem partsOf_drop_ws_token (a w b : List Char) (hw : ∀ c ∈ w, isPyWS c = true) :
    partsOf (stripL a ++ ',' :: (w ++ ',' :: stripR b)) =
      partsOf (stripL a ++ ',' :: stripR b) := by
  have hwc : ∀ c ∈ w, ¬c = ',' := by
    intro c hc hceq
    have h := hw c hc
    rw [hceq] at h
    exact absurd h (by decide)
  unfold partsOf splitComma
  rw [splitCommaGo_append (stripL a) (w ++ ',' :: stripR b) []]
  rw [splitCommaGo_append w (stripR b) []]
  rw [splitCommaGo_nocomma w hwc []]
  rw [splitCommaGo_append (stripL a) (stripR b) []]
  simp only [List.reverse_nil, List.nil_append, List.map_append, List.filter_append,
    List.map_cons, List.map_nil, List.filter_cons]
  rw [pyStrip_ws w hw]
  simp

theorem append_comma_isEmpty (x y : List Char) : (x ++ ',' :: y).isEmpty = false := by
  cases x <;> rfl

theorem pyStrip_nil : pyStrip [] = [] := rfl

theorem dropWhile_ws_lead (u s : List Char) (hu : ∀ c ∈ u, isPyWS c = true) :
    List.dropWhile isPyWS (u ++ s) = List.dropWhile isPyWS s := by
  induction u with
  | nil => rfl
  | cons c cs ih =>
    rw [List.cons_append, List.dropWhile_cons,
      if_pos (hu c (List.mem_cons_self _ _))]
    exact ih (fun d hd => hu d (List.mem_cons_of_mem _ hd))

theorem pyStrip_ws_lead (u s : List Char) (hu : ∀ c ∈ u, isPyWS c = true) :
    pyStrip (u ++ s) = pyStrip s := by
  unfold pyStrip stripL
  rw [dropWhile_ws_lead u s hu]

theorem stripR_ws_suffix (z u : List Char) (hu : ∀ c ∈ u, isPyWS c = true) :
    stripR (z ++ u) = stripR z := by
  unfold stripR
  rw [List.reverse_append,
    dropWhile_ws_lead u.reverse z.reverse
      (fun c hc => hu c (List.mem_reverse.mp hc))]

theorem stripR_ws (w : List Char) (hw : ∀ c ∈ w, isPyWS c = true) :
    stripR w = [] := by
  unfold stripR
  rw [List.dropWhile_eq_nil_iff.mpr (fun c hc => hw c (List.mem_reverse.mp hc))]
  rfl

theorem pyStrip_ws_suffix (s u : List Char) (hu : ∀ c ∈ u, isPyWS c = true) :
    pyStrip (s ++ u) = pyStrip s := by
  by_cases hs : List.dropWhile isPyWS s = []
  · have hsws : ∀ c ∈ s, isPyWS c = true := List.dropWhile_eq_nil_iff.mp hs
    rw [pyStrip_ws s hsws, pyStrip_ws (s ++ u)]
    intro c hc
    rcases List.mem_append.mp hc with h | h
    · exact hsws c h
    · exact hu c h
  · unfold pyStrip stripL
    rw [List.dropWhile_append]
    simp only [hs, List.isEmpty_iff, if_neg hs]
    exact stripR_ws_suffix _ u hu

theorem splitCommaGo_shift (u : List Char) (hu : ∀ c ∈ u, ¬c = ',') :
    ∀ (z acc : List Char),
      splitCommaGo acc (u ++ z) = splitCommaGo (u.reverse ++ acc) z := by
  induction u with
  | nil =>
    intro z acc
    simp
  | cons c cs ih =>
    intro z acc
    rw [List.cons_append]
    simp only [splitCommaGo]
    rw [if_neg (hu c (List.mem_cons_self _ _))]
    rw [ih (fun d hd => hu d (List.mem_cons_of_mem _ hd)) z (c :: acc)]
    rw [List.reverse_cons, List.append_assoc, List.singleton_append]

theorem splitCommaGo_map_lead (z : List Char) :
    ∀ (w a : List Char), (∀ c ∈ w, isPyWS c = true) →
      ((splitCommaGo (a ++ w.reverse) z).map pyStrip) =
        ((splitCommaGo a z).map pyStrip) := by
  induction z with
  | nil =>
    intro w a hw
    simp only [splitCommaGo, List.map_cons, List.map_nil, List.reverse_append,
      List.reverse_reverse]
    rw [pyStrip_ws_lead w a.reverse hw]
  | cons c z ih =>
    intro w a hw
    simp only [splitCommaGo]
    by_cases hc : c = ','
    · rw [if_pos hc, if_pos hc]
      simp only [List.map_cons, List.reverse_append, List.reverse_reverse]
      rw [pyStrip_ws_lead w a.reverse hw]
    · rw [if_neg hc, if_neg hc]
      rw [show c :: (a ++ w.reverse) = (c :: a) ++ w.reverse from rfl]
      exact ih w (c :: a) hw

theorem splitCommaGo_map_trail (z : List Char) :
    ∀ (u acc : List Char), (∀ c ∈ u, isPyWS c = true) →
      ((splitCommaGo acc (z ++ u)).map pyStrip) =
        ((splitCommaGo acc z).map pyStrip) := by
  induction z with
  | nil =>
    intro u acc hu
    have huc : ∀ c ∈ u, ¬c = ',' := by
      intro c hc hceq
      have h := hu c hc
      rw [hceq] at h
      exact absurd h (by decide)
    rw [List.nil_append, splitCommaGo_nocomma u huc acc]
    simp only [splitCommaGo, List.map_cons, List.map_nil]
    rw [pyStrip_ws_suffix acc.reverse u hu]
  | cons c z ih =>
    intro u acc hu
    rw [List.cons_append]
    simp only [splitCommaGo]
    by_cases hc : c = ','
    · rw [if_pos hc, if_pos hc]
      simp only [List.map_cons]
      rw [ih u [] hu]
    · rw [if_neg hc, if_neg hc]
      exact ih u (c :: acc) hu

theorem partsOf_stripL (x : List Char) : partsOf x = partsOf (stripL x) := by
  unfold partsOf splitComma stripL
  have hx : x = x.takeWhile isPyWS ++ x.dropWhile isPyWS :=
    (List.takeWhile_append_dropWhile isPyWS x).symm
  have hws : ∀ c ∈ x.takeWhile isPyWS, isPyWS c = true :=
    fun c hc => List.mem_takeWhile_imp hc
  have hnc : ∀ c ∈ x.takeWhile isPyWS, ¬c = ',' := by
    intro c hc hceq
    have h := hws c hc
    rw [hceq] at h
    exact absurd h (by decide)
  conv_lhs => rw [hx]
  rw [splitCommaGo_shift (x.takeWhile isPyWS) hnc (x.dropWhile isPyWS) []]
  rw [List.append_nil]
  rw [show (x.takeWhile isPyWS).reverse =
      ([] : List Char) ++ (x.takeWhile isPyWS).reverse from rfl]
  rw [splitCommaGo_map_lead (x.dropWhile isPyWS) (x.takeWhile isPyWS) [] hws]

theorem partsOf_stripR (x : List Char) : partsOf x = partsOf (stripR x) := by
  unfold partsOf splitComma
  have hx : x = stripR x ++ (x.reverse.takeWhile isPyWS).reverse := by
    unfold stripR
    rw [← List.reverse_append, List.takeWhile_append_dropWhile, List.reverse_reverse]
  have hws : ∀ c ∈ (x.reverse.takeWhile isPyWS).reverse, isPyWS c = true :=
    fun c hc => List.mem_takeWhile_imp (List.mem_reverse.mp hc)
  conv_lhs => rw [hx]
  rw [splitCommaGo_map_trail (stripR x) ((x.reverse.takeWhile isPyWS).reverse) [] hws]

theorem partsOf_pyStrip (x : List Char) : partsOf (pyStrip x) = partsOf x := by
  unfold pyStrip
  rw [← partsOf_stripR (stripL x), ← partsOf_stripL x]

theorem partsOf_cons_comma (z : List Char) : partsOf (',' :: z) = partsOf z := by
  unfold partsOf splitComma
  simp only [splitCommaGo, if_pos rfl, List.reverse_nil, List.map_cons,
    List.filter_cons]
  rfl

theorem processBody_of_nonempty (tbl : String) (g2 : List Char)
    (h : ¬(pyStrip g2).isEmpty = true) :
    processBody tbl g2 = finalizeTable tbl (scanParts (partsOf (pyStrip g2))) := by
  simp only [processBody]
  rw [if_neg h]

theorem isEmpty_false_of_ne_nil (l : List Char) (h : ¬l = []) :
    ¬l.isEmpty = true := by
  intro hc
  exact h (List.isEmpty_iff.mp hc)

/-- C10: empty column tokens inside a table body are silently discarded,
whichever way they arise.  (1) a whitespace-only token between two commas
changes nothing: the parse of the body is identical with and without it;
(2) a leading comma (optionally preceded by whitespace) before a nonblank
remainder changes nothing; (3) a trailing comma (optionally followed by
whitespace) after a nonblank prefix changes nothing — so in all three cases
the empty token adds no column and no diagnostic to `errors` or
`global_errors`; (4) even a body consisting only of commas and whitespace
produces a record with no columns and an empty `errors` list (no diagnostic
at all); and (5) no parsed table ever contains the empty string as a
column. -/
theorem c10_empty_tokens :
    (∀ (tbl : String) (a w b : List Char), (∀ c ∈ w, isPyWS c = true) →
      processBody tbl (a ++ ',' :: (w ++ ',' :: b)) =
        processBody tbl (a ++ ',' :: b)) ∧
    (∀ (tbl : String) (w b : List Char), (∀ c ∈ w, isPyWS c = true) →
      ¬pyStrip b = [] →
      processBody tbl (w ++ ',' :: b) = processBody tbl b) ∧
    (∀ (tbl : String) (a w : List Char), (∀ c ∈ w, isPyWS c = true) →
      ¬pyStrip a = [] →
      processBody tbl (a ++ ',' :: w) = processBody tbl a) ∧
    (∀ (tbl : String) (w1 w2 : List Char),
      (∀ c ∈ w1, isPyWS c = true) → (∀ c ∈ w2, isPyWS c = true) →
      processBody tbl (w1 ++ ',' :: w2) =
        { table := tbl, pk := none, cols := [], fks := [], composite := true,
          skip := true, errors := [] }) ∧
    (∀ (text : String), ∀ t ∈ (parse_schema_text text).1, "" ∉ t.cols) := by
  refine ⟨?_, ?_, ?_, ?_, ?_⟩
  · intro tbl a w b hw
    have h1 : pyStrip (a ++ ',' :: (w ++ ',' :: b)) =
        stripL a ++ ',' :: (w ++ ',' :: stripR b) := by
      rw [pyStrip_append_comma, stripR_append_comma]
    have h2 : pyStrip (a ++ ',' :: b) = stripL a ++ ',' :: stripR b :=
      pyStrip_append_comma a b
    simp only [processBody, h1, h2, append_comma_isEmpty, Bool.false_eq_true,
      if_false]
    rw [partsOf_drop_ws_token a w b hw]
  · intro tbl w b hw hb
    have h1 : pyStrip (w ++ ',' :: b) = ',' :: stripR b := by
      unfold pyStrip stripL
      rw [dropWhile_ws_lead w (',' :: b) hw]
      rw [List.dropWhile_cons, if_neg (by decide)]
      have h := stripR_append_comma [] b
      rw [List.nil_append] at h
      exact h
    rw [processBody_of_nonempty tbl (w ++ ',' :: b)
        (by rw [h1]; exact isEmpty_false_of_ne_nil _ (List.cons_ne_nil _ _)),
      processBody_of_nonempty tbl b (isEmpty_false_of_ne_nil _ hb)]
    rw [h1, partsOf_cons_comma, ← partsOf_stripR b, partsOf_pyStrip b]
  · intro tbl a w hw ha
    have h1 : pyStrip (a ++ ',' :: w) = stripL a ++ ',' :: ([] : List Char) := by
      rw [pyStrip_append_comma, stripR_ws w hw]
    rw [processBody_of_nonempty tbl (a ++ ',' :: w)
        (by rw [h1]; exact isEmpty_false_of_ne_nil _ (by simp)),
      processBody_of_nonempty tbl a (isEmpty_false_of_ne_nil _ ha)]
    rw [h1]
    have hsplit : partsOf (stripL a ++ ',' :: ([] : List Char)) =
        partsOf (stripL a) := by
      unfold partsOf splitComma
      rw [splitCommaGo_append (stripL a) [] []]
      simp only [List.map_append, List.filter_append]
      rw [show splitCommaGo [] ([] : List Char) = [[]] from rfl]
      simp [pyStrip_nil]
    rw [hsplit, ← partsOf_stripL a, ← partsOf_pyStrip a]
  · intro tbl w1 w2 hw1 hw2
    have h1 : pyStrip (w1 ++ ',' :: w2) = [','] := by
      rw [pyStrip_append_comma, stripR_ws w2 hw2]
      have hL : stripL w1 = [] :=
        List.dropWhile_eq_nil_iff.mpr hw1
      rw [hL, List.nil_append]
    simp only [processBody, h1]
    rfl
  · intro text t ht
    exact (parse_inv text t ht).2.2.1

/-- Witness for C10: part 1 on `a(pk), ,b` versus `a(pk), b` (whitespace
token between commas); part 2 on `,b` versus `b` (leading comma); part 3 on
`a(pk),` versus `a(pk)` (trailing comma); part 4 on the comma-only body
`, `; part 5 on the parse of `t(a(pk),,b)`. -/
theorem c10_empty_tokens_witness :
    processBody "t" ("a(pk)".toList ++ ',' :: (" ".toList ++ ',' :: " b".toList)) =
      processBody "t" ("a(pk)".toList ++ ',' :: " b".toList) ∧
    processBody "t" ([] ++ ',' :: "b".toList) = processBody "t" "b".toList ∧
    processBody "t" ("a(pk)".toList ++ ',' :: []) = processBody "t" "a(pk)".toList ∧
    processBody "t" ([] ++ ',' :: " ".toList) =
      { table := "t", pk := none, cols := [], fks := [], composite := true,
        skip := true, errors := [] } ∧
    "" ∉ ({ table := "t", pk := some "a", cols := ["a", "b"], fks := [],
            composite := false, skip := false, errors := [] } : TableD).cols := by
  refine ⟨?_, ?_, ?_, ?_, ?_⟩
  · exact c10_empty_tokens.1 "t" "a(pk)".toList " ".toList " b".toList (by decide)
  · exact c10_empty_tokens.2.1 "t" [] "b".toList (by decide) (by decide)
  · exact c10_empty_tokens.2.2.1 "t" "a(pk)".toList [] (by decide) (by decide)
  · exact c10_empty_tokens.2.2.2.1 "t" [] " ".toList (by decide) (by decide)
  · exact c10_empty_tokens.2.2.2.2 "t(a(pk),,b)" _ (by decide)

end HW1
